import Mathlib

/-!
Verification of the walker propagation and population-control engine of the
pauxy AFQMC code against its specification.

The Python sources are shallowly embedded:
* floating point numbers become exact `ℝ`/`ℚ`/`ℂ` values;
* `numpy` arrays become `Matrix (Fin n) (Fin m)` or `Fin n → _` / `List _`;
* code that can raise returns `Except`;
* random draws become explicit arguments (one argument per draw site).
-/

namespace Pauxy

open Matrix BigOperators

/-! ## `pauxy/utils/linalg.py`: `sherman_morrison` -/

variable {K : Type} [Field K]

/-- Embedding of `sherman_morrison(Ainv, u, vt)` from `pauxy/utils/linalg.py`:
`Ainv - (Ainv.dot(numpy.outer(u,vt)).dot(Ainv)) / (1.0 + vt.dot(Ainv).dot(u))`.
Division by the float scalar is modelled as multiplication by the field inverse. -/
def sherman_morrison {n : ℕ} (Ainv : Matrix (Fin n) (Fin n) K)
    (u vt : Fin n → K) : Matrix (Fin n) (Fin n) K :=
  Ainv - (1 + vt ⬝ᵥ Ainv.mulVec u)⁻¹ • (Ainv * vecMulVec u vt * Ainv)

/-- Outer-product contraction: `(u vtᵀ) M (u vtᵀ) = (vtᵀ M u) • (u vtᵀ)`. -/
lemma vecMulVec_mul_mul_vecMulVec {n : ℕ} (u vt : Fin n → K)
    (M : Matrix (Fin n) (Fin n) K) :
    vecMulVec u vt * M * vecMulVec u vt = (vt ⬝ᵥ M.mulVec u) • vecMulVec u vt := by
  ext i j
  simp only [Matrix.mul_apply, Matrix.vecMulVec_apply, Matrix.smul_apply,
    dotProduct, Matrix.mulVec, smul_eq_mul, Finset.sum_mul, Finset.mul_sum]
  rw [Finset.sum_comm]
  apply Finset.sum_congr rfl
  intro k _
  apply Finset.sum_congr rfl
  intro l _
  ring

/-- Sherman-Morrison: right inverse property. -/
lemma sherman_morrison_mul {n : ℕ} (A Ainv : Matrix (Fin n) (Fin n) K)
    (u vt : Fin n → K) (hr : A * Ainv = 1)
    (hd : 1 + vt ⬝ᵥ Ainv.mulVec u ≠ 0) :
    (A + vecMulVec u vt) * sherman_morrison Ainv u vt = 1 := by
  set U : Matrix (Fin n) (Fin n) K := vecMulVec u vt with hU
  set d : K := vt ⬝ᵥ Ainv.mulVec u with hdd
  have key : U * (Ainv * U * Ainv) = d • (U * Ainv) := by
    calc U * (Ainv * U * Ainv) = (U * Ainv * U) * Ainv := by
          simp only [Matrix.mul_assoc]
      _ = (d • U) * Ainv := by
          rw [hU, hdd, vecMulVec_mul_mul_vecMulVec]
      _ = d • (U * Ainv) := by rw [Matrix.smul_mul]
  have hAU : A * (Ainv * U * Ainv) = U * Ainv := by
    calc A * (Ainv * U * Ainv) = (A * Ainv) * (U * Ainv) := by
          simp only [Matrix.mul_assoc]
      _ = U * Ainv := by rw [hr, Matrix.one_mul]
  have expand : (A + U) * sherman_morrison Ainv u vt
      = 1 + U * Ainv - (1 + d)⁻¹ • (U * Ainv) - ((1 + d)⁻¹ * d) • (U * Ainv) := by
    rw [sherman_morrison]
    rw [Matrix.add_mul, Matrix.mul_sub, Matrix.mul_sub, Matrix.mul_smul, Matrix.mul_smul]
    rw [hAU, hr, key, smul_smul]
    abel
  rw [expand]
  have hc : (1 + d)⁻¹ + (1 + d)⁻¹ * d = 1 := by
    field_simp
  have : (1 + d)⁻¹ • (U * Ainv) + ((1 + d)⁻¹ * d) • (U * Ainv)
      = ((1 + d)⁻¹ + (1 + d)⁻¹ * d) • (U * Ainv) := by
    rw [add_smul]
  have h2 : 1 + U * Ainv - (1 + d)⁻¹ • (U * Ainv) - ((1 + d)⁻¹ * d) • (U * Ainv)
      = 1 + U * Ainv - ((1 + d)⁻¹ + (1 + d)⁻¹ * d) • (U * Ainv) := by
    rw [add_smul]
    abel
  rw [h2, hc, one_smul]
  abel

/-- Sherman-Morrison: left inverse property. -/
lemma mul_sherman_morrison {n : ℕ} (A Ainv : Matrix (Fin n) (Fin n) K)
    (u vt : Fin n → K) (hl : Ainv * A = 1)
    (hd : 1 + vt ⬝ᵥ Ainv.mulVec u ≠ 0) :
    sherman_morrison Ainv u vt * (A + vecMulVec u vt) = 1 := by
  set U : Matrix (Fin n) (Fin n) K := vecMulVec u vt with hU
  set d : K := vt ⬝ᵥ Ainv.mulVec u with hdd
  have key : (Ainv * U * Ainv) * U = d • (Ainv * U) := by
    calc (Ainv * U * Ainv) * U = Ainv * (U * Ainv * U) := by
          simp only [Matrix.mul_assoc]
      _ = Ainv * (d • U) := by
          rw [hU, hdd, vecMulVec_mul_mul_vecMulVec]
      _ = d • (Ainv * U) := by rw [Matrix.mul_smul]
  have hUA : (Ainv * U * Ainv) * A = Ainv * U := by
    calc (Ainv * U * Ainv) * A = (Ainv * U) * (Ainv * A) := by
          simp only [Matrix.mul_assoc]
      _ = Ainv * U := by rw [hl, Matrix.mul_one]
  have expand : sherman_morrison Ainv u vt * (A + U)
      = 1 + Ainv * U - (1 + d)⁻¹ • (Ainv * U) - ((1 + d)⁻¹ * d) • (Ainv * U) := by
    rw [sherman_morrison]
    rw [Matrix.mul_add, Matrix.sub_mul, Matrix.sub_mul, Matrix.smul_mul, Matrix.smul_mul]
    rw [hUA, hl, key, smul_smul]
    abel
  rw [expand]
  have hc : (1 + d)⁻¹ + (1 + d)⁻¹ * d = 1 := by
    field_simp
  have h2 : 1 + Ainv * U - (1 + d)⁻¹ • (Ainv * U) - ((1 + d)⁻¹ * d) • (Ainv * U)
      = 1 + Ainv * U - ((1 + d)⁻¹ + (1 + d)⁻¹ * d) • (Ainv * U) := by
    rw [add_smul]
    abel
  rw [h2, hc, one_smul]
  abel

/-! ## `pauxy/walker.py`: `Walker.inverse_overlap` / `Walker.update_inverse_overlap`

One spin block of the walker.  `Walker.inverse_overlap` inverts
`(trial[:,block].conj()).T.dot(phi[:,block])` for each of the two blocks;
`Walker.update_inverse_overlap` applies `sherman_morrison` with
`u = trial.psi[i,block].conj()` and the given change row `vt`, identically for
each block.  Both are embedded for a single generic block. -/

variable [StarRing K]

/-- The overlap matrix `Ψ_T† Φ` of one spin block
(`(trial[:,:nup].conj()).T.dot(self.phi[:,:nup])` in `Walker.inverse_overlap`). -/
def overlap_block {m p : ℕ} (T phi : Matrix (Fin m) (Fin p) K) :
    Matrix (Fin p) (Fin p) K :=
  T.conjTranspose * phi

/-- One spin block of `Walker.update_inverse_overlap`:
`sherman_morrison(self.inv_ovlp[block], trial.psi[i,block].conj(), vt)`. -/
def update_inverse_overlap_block {m p : ℕ} (T : Matrix (Fin m) (Fin p) K)
    (Ainv : Matrix (Fin p) (Fin p) K) (vt : Fin p → K) (i : Fin m) :
    Matrix (Fin p) (Fin p) K :=
  sherman_morrison Ainv (fun a => star (T i a)) vt

/-- Changing row `i` of the amplitude block by adding `vt` (a single-site change
of the amplitude) changes the overlap matrix by the rank-one matrix
`(trial row i conjugated) ⊗ vt`. -/
lemma overlap_block_updateRow {m p : ℕ} (T phi : Matrix (Fin m) (Fin p) K)
    (vt : Fin p → K) (i : Fin m) :
    overlap_block T (phi.updateRow i (fun b => phi i b + vt b))
      = overlap_block T phi + vecMulVec (fun a => star (T i a)) vt := by
  ext a b
  simp only [overlap_block, Matrix.mul_apply, Matrix.add_apply,
    Matrix.conjTranspose_apply, Matrix.updateRow_apply, Matrix.vecMulVec_apply]
  have hsplit : ∀ k : Fin m,
      star (T k a) * (if k = i then phi i b + vt b else phi k b)
        = star (T k a) * phi k b + (if k = i then star (T i a) * vt b else 0) := by
    intro k
    by_cases hk : k = i
    · subst hk
      simp [mul_add]
    · simp [hk]
  rw [Finset.sum_congr rfl (fun k _ => hsplit k), Finset.sum_add_distrib,
    Finset.sum_ite_eq' Finset.univ i (fun _ => star (T i a) * vt b)]
  simp

/-! ## `pauxy/walker.py`: failure semantics of `Walker.inverse_overlap` (C8)

`Walker.inverse_overlap` calls `scipy.linalg.inv` on each spin block's overlap
matrix with no exception handling anywhere on the path; `scipy.linalg.inv`
raises `LinAlgError` exactly when the matrix is singular.  The raise is
modelled as `Except.error`. -/

/-- `scipy.linalg.inv`: inverse of a square matrix, raising (`Except.error`)
exactly on singular input.  On nonsingular input it returns
`det⁻¹ • adjugate`, the matrix inverse. -/
def scipy_inv [DecidableEq K] {p : ℕ} (A : Matrix (Fin p) (Fin p) K) :
    Except Unit (Matrix (Fin p) (Fin p) K) :=
  if A.det = 0 then .error () else .ok ((A.det)⁻¹ • A.adjugate)

/-- Embedding of `Walker.inverse_overlap(trial)`: invert the up-spin overlap
block, then the down-spin overlap block.  Any singular block raises; the
walker's `weight`/`alive` fields are not touched on this path. -/
def inverse_overlap [DecidableEq K] {m p q : ℕ}
    (Tu phiu : Matrix (Fin m) (Fin p) K) (Td phid : Matrix (Fin m) (Fin q) K) :
    Except Unit (Matrix (Fin p) (Fin p) K × Matrix (Fin q) (Fin q) K) := do
  let up ← scipy_inv (overlap_block Tu phiu)
  let dn ← scipy_inv (overlap_block Td phid)
  return (up, dn)

/-- C1: for every invertible square matrix `A` and vectors `u`, `vt` with
`1 + vtᵀ A⁻¹ u ≠ 0`, `sherman_morrison(Ainv, u, vt)` is the (two-sided) inverse
of `A + u ⊗ vt`; consequently one spin block of `Walker.update_inverse_overlap`
applied after a single-site (row `i`) change of the amplitude block by `w`
produces exactly the inverse-overlap matrix that a full recomputation via
`Walker.inverse_overlap` on the changed amplitude would invert. -/
theorem c1_sherman_morrison_update_correct
    {K : Type} [Field K] [StarRing K] [DecidableEq K] {n m p : ℕ}
    (A Ainv : Matrix (Fin n) (Fin n) K) (u vt : Fin n → K)
    (T phi : Matrix (Fin m) (Fin p) K) (Binv : Matrix (Fin p) (Fin p) K)
    (w : Fin p → K) (i : Fin m)
    (hAr : A * Ainv = 1) (hAl : Ainv * A = 1)
    (hd : 1 + vt ⬝ᵥ Ainv.mulVec u ≠ 0)
    (hBr : Pauxy.overlap_block T phi * Binv = 1)
    (hBl : Binv * Pauxy.overlap_block T phi = 1)
    (hd2 : 1 + w ⬝ᵥ Binv.mulVec (fun a => star (T i a)) ≠ 0) :
    (A + vecMulVec u vt)⁻¹ = Pauxy.sherman_morrison Ainv u vt
    ∧ (A + vecMulVec u vt) * Pauxy.sherman_morrison Ainv u vt = 1
    ∧ Pauxy.sherman_morrison Ainv u vt * (A + vecMulVec u vt) = 1
    ∧ Pauxy.update_inverse_overlap_block T Binv w i
        = (Pauxy.overlap_block T (phi.updateRow i (fun b => phi i b + w b)))⁻¹
    ∧ Pauxy.overlap_block T (phi.updateRow i (fun b => phi i b + w b))
        * Pauxy.update_inverse_overlap_block T Binv w i = 1
    ∧ Pauxy.update_inverse_overlap_block T Binv w i
        * Pauxy.overlap_block T (phi.updateRow i (fun b => phi i b + w b)) = 1 := by
  have h1 := Pauxy.sherman_morrison_mul A Ainv u vt hAr hd
  have h2 := Pauxy.mul_sherman_morrison A Ainv u vt hAl hd
  have hob := Pauxy.overlap_block_updateRow T phi w i
  have h3 : Pauxy.overlap_block T (phi.updateRow i (fun b => phi i b + w b))
      * Pauxy.update_inverse_overlap_block T Binv w i = 1 := by
    rw [hob, Pauxy.update_inverse_overlap_block]
    exact Pauxy.sherman_morrison_mul _ Binv _ w hBr hd2
  have h4 : Pauxy.update_inverse_overlap_block T Binv w i
      * Pauxy.overlap_block T (phi.updateRow i (fun b => phi i b + w b)) = 1 := by
    rw [hob, Pauxy.update_inverse_overlap_block]
    exact Pauxy.mul_sherman_morrison _ Binv _ w hBl hd2
  exact ⟨Matrix.inv_eq_right_inv h1, h1, h2,
    (Matrix.inv_eq_right_inv h3).symm, h3, h4⟩

/-- Witness for C1 at a concrete input over `ℚ` (trivial star):
`A = [[2]]`, `Ainv = [[1/2]]`, `u = vt = [1]`, trial and amplitude `[[1]]`. -/
theorem c1_sherman_morrison_update_correct_witness :
    (!![(2 : ℚ)] + vecMulVec ![1] ![1])⁻¹ = Pauxy.sherman_morrison !![(1 : ℚ)/2] ![1] ![1]
    ∧ (!![(2 : ℚ)] + vecMulVec ![1] ![1]) * Pauxy.sherman_morrison !![(1 : ℚ)/2] ![1] ![1] = 1
    ∧ Pauxy.sherman_morrison !![(1 : ℚ)/2] ![1] ![1] * (!![(2 : ℚ)] + vecMulVec ![1] ![1]) = 1
    ∧ Pauxy.update_inverse_overlap_block !![(1 : ℚ)] !![1] ![1] 0
        = (Pauxy.overlap_block !![(1 : ℚ)]
            ((!![(1 : ℚ)]).updateRow 0 (fun b => !![(1 : ℚ)] 0 b + ![1] b)))⁻¹
    ∧ Pauxy.overlap_block !![(1 : ℚ)]
          ((!![(1 : ℚ)]).updateRow 0 (fun b => !![(1 : ℚ)] 0 b + ![1] b))
        * Pauxy.update_inverse_overlap_block !![(1 : ℚ)] !![1] ![1] 0 = 1
    ∧ Pauxy.update_inverse_overlap_block !![(1 : ℚ)] !![1] ![1] 0
        * Pauxy.overlap_block !![(1 : ℚ)]
            ((!![(1 : ℚ)]).updateRow 0 (fun b => !![(1 : ℚ)] 0 b + ![1] b)) = 1 := by
  have hAr : !![(2 : ℚ)] * !![(1 : ℚ)/2] = 1 := by
    ext i j
    fin_cases i; fin_cases j
    norm_num [Matrix.mul_apply]
  have hAl : !![(1 : ℚ)/2] * !![(2 : ℚ)] = 1 := by
    ext i j
    fin_cases i; fin_cases j
    norm_num [Matrix.mul_apply]
  have hd : 1 + ![(1 : ℚ)] ⬝ᵥ (!![(1 : ℚ)/2]).mulVec ![1] ≠ 0 := by
    simp [Matrix.mulVec, Matrix.dotProduct]
    norm_num
  have hBr : Pauxy.overlap_block !![(1 : ℚ)] !![(1 : ℚ)] * !![(1 : ℚ)] = 1 := by
    ext i j
    fin_cases i; fin_cases j
    simp [Pauxy.overlap_block, Matrix.mul_apply]
  have hBl : !![(1 : ℚ)] * Pauxy.overlap_block !![(1 : ℚ)] !![(1 : ℚ)] = 1 := by
    ext i j
    fin_cases i; fin_cases j
    simp [Pauxy.overlap_block, Matrix.mul_apply]
  have hd2 : 1 + ![(1 : ℚ)] ⬝ᵥ (!![(1 : ℚ)]).mulVec (fun a => star (!![(1 : ℚ)] 0 a)) ≠ 0 := by
    simp [Matrix.mulVec, Matrix.dotProduct]
  exact c1_sherman_morrison_update_correct !![(2 : ℚ)] !![(1 : ℚ)/2] ![1] ![1]
    !![(1 : ℚ)] !![(1 : ℚ)] !![(1 : ℚ)] ![1] 0 hAr hAl hd hBr hBl hd2

/-- C8 counterexample: on a singular up-spin overlap block (trial `[[1]]`,
amplitude `[[0]]`, so the overlap matrix is `[[0]]`), `Walker.inverse_overlap`
raises (`scipy.linalg.inv` raises `LinAlgError`); it does not return a walker
with weight 0 and alive=false.  This refutes "never raises to the caller". -/
theorem c8_counterexample :
    Pauxy.inverse_overlap !![(1 : ℚ)] !![0] !![1] !![1] = Except.error () := by
  simp [Pauxy.inverse_overlap, Pauxy.scipy_inv, Pauxy.overlap_block,
    Matrix.det_fin_one, Matrix.mul_apply, Bind.bind, Except.bind]

/-- C8 (amended): `Walker.inverse_overlap` raises (returns `Except.error`)
exactly when one of the two spin blocks' overlap matrices is singular; there is
no handler that converts the failure into a weight-0 dead walker. -/
theorem c8_singular_overlap_raises
    {K : Type} [Field K] [StarRing K] [DecidableEq K] {m p q : ℕ}
    (Tu phiu : Matrix (Fin m) (Fin p) K) (Td phid : Matrix (Fin m) (Fin q) K) :
    Pauxy.inverse_overlap Tu phiu Td phid = Except.error ()
      ↔ (Pauxy.overlap_block Tu phiu).det = 0
        ∨ (Pauxy.overlap_block Td phid).det = 0 := by
  by_cases h1 : (Pauxy.overlap_block Tu phiu).det = 0
  · simp [Pauxy.inverse_overlap, Pauxy.scipy_inv, h1, Bind.bind, Except.bind, Functor.map, Except.map]
  · by_cases h2 : (Pauxy.overlap_block Td phid).det = 0
    · simp [Pauxy.inverse_overlap, Pauxy.scipy_inv, h1, h2, Bind.bind, Except.bind, Functor.map, Except.map]
    · simp [Pauxy.inverse_overlap, Pauxy.scipy_inv, h1, h2, Bind.bind, Except.bind,
        Functor.map, Except.map, Pure.pure, Except.pure]

/-- Witness for C8 (amended) at a nonsingular concrete input: no error is
raised when both overlap blocks are invertible. -/
theorem c8_singular_overlap_raises_witness :
    ¬ (Pauxy.inverse_overlap !![(1 : ℚ)] !![2] !![1] !![3] = Except.error ()) := by
  rw [c8_singular_overlap_raises]
  simp [Pauxy.overlap_block, Matrix.det_fin_one, Matrix.mul_apply]

/-! ## `pauxy/walker.py`: `Walkers.__init__` weight thresholds (C9)

```
self.wmax = inputs.get('max_weight', 4.0)
self.wmin = inputs.get('max_weight', 0.05)
```
The configuration dictionary is embedded as a partial map `String → Option ℚ`. -/

/-- `Walkers.__init__`: `self.wmax = inputs.get('max_weight', 4.0)`. -/
def walkers_wmax (inputs : String → Option ℚ) : ℚ :=
  (inputs "max_weight").getD 4

/-- `Walkers.__init__`: `self.wmin = inputs.get('max_weight', 0.05)` — the
minimum-weight threshold is read from the `'max_weight'` key. -/
def walkers_wmin (inputs : String → Option ℚ) : ℚ :=
  (inputs "max_weight").getD (1/20)

/-- C9: `wmin` is read from the configuration key `'max_weight'`
(default `0.05 = 1/20`): whenever the configuration supplies `'max_weight'`,
`wmin = wmax` (both equal the supplied value); `wmin` depends only on the
`'max_weight'` entry, so no other key — in particular `'min_weight'` — can set
the minimum threshold independently. -/
theorem c9_wmin_reads_max_weight (inputs : String → Option ℚ) (v : ℚ)
    (h : inputs "max_weight" = some v) :
    Pauxy.walkers_wmin inputs = Pauxy.walkers_wmax inputs
    ∧ Pauxy.walkers_wmin inputs = v
    ∧ (∀ f g : String → Option ℚ,
        f "max_weight" = g "max_weight" → Pauxy.walkers_wmin f = Pauxy.walkers_wmin g)
    ∧ (∀ (f : String → Option ℚ) (w : Option ℚ),
        Pauxy.walkers_wmin (Function.update f "min_weight" w) = Pauxy.walkers_wmin f)
    ∧ Pauxy.walkers_wmin (fun _ => none) = 1/20 := by
  refine ⟨?_, ?_, ?_, ?_, rfl⟩
  · simp [Pauxy.walkers_wmin, Pauxy.walkers_wmax, h]
  · simp [Pauxy.walkers_wmin, h]
  · intro f g hfg
    simp [Pauxy.walkers_wmin, hfg]
  · intro f w
    have hne : "min_weight" ≠ "max_weight" := by decide
    simp [Pauxy.walkers_wmin, Function.update, hne]

/-- Witness for C9: a concrete configuration supplying `max_weight = 7`. -/
theorem c9_wmin_reads_max_weight_witness :
    Pauxy.walkers_wmin (fun s => if s = "max_weight" then some 7 else none)
      = Pauxy.walkers_wmax (fun s => if s = "max_weight" then some 7 else none)
    ∧ Pauxy.walkers_wmin (fun s => if s = "max_weight" then some 7 else none) = 7 := by
  have h := c9_wmin_reads_max_weight
    (fun s => if s = "max_weight" then some 7 else none) 7 (by simp)
  exact ⟨h.1, h.2.1⟩

/-! ## Comb population control (C2, C3)

Two implementations exist in the sources:

* `pauxy/walkers/handler.py`, `Walkers.comb` (lines 153-167): after gathering
  the absolute weights, one uniform offset `r` is drawn, the teeth
  `(i+r)*(total/ntarget)` are generated, and the per-walker multiplicities
  `parent_ix` are accumulated by an incremental two-pointer loop
  (`if comb[ic] < cprobs[iw]: parent_ix[iw] += 1; ic += 1 else: iw += 1`);
  finally every walker weight is reset to `1.0`.
* `pauxy/walker.py`, `Walkers.comb` (lines 105-111): the same teeth, but each
  tooth is assigned by scanning `cprobs` from the start and taking the first
  bucket whose cumulative sum exceeds the tooth.

Weights are embedded as `List ℚ`, and the single-process (`FakeComm`) path is
modelled (`iproc = 0`, `nprocs = 1`, all walkers alive, so
`ntarget = len(weights)`). -/

/-- `numpy.cumsum(weights)`. -/
def cumsum : List ℚ → List ℚ
  | [] => []
  | w :: rest => w :: (cumsum rest).map (fun x => w + x)

/-- The comb teeth `[(i+r) * (total_weight/ntarget) for i in range(ntarget)]`,
built from the single uniform offset `r`. -/
def comb_teeth (total : ℚ) (ntarget : ℕ) (r : ℚ) : List ℚ :=
  (List.range ntarget).map (fun i : ℕ => ((i : ℚ) + r) * (total / (ntarget : ℚ)))

/-- `pauxy/walker.py` `Walkers.comb` inner loop: a tooth `c` is assigned to the
first walker whose cumulative weight exceeds it
(`for (iw, w) in enumerate(cprobs): if c < w: parent_ix[ic] = iw; break`).
If no bucket exceeds the tooth the Python loop leaves `parent_ix[ic]`
untouched; under the stated hypotheses every tooth lies strictly below the
total weight, so this case does not arise (here `findIdx` then returns
`cprobs.length`). -/
def scan_assign (cprobs : List ℚ) (c : ℚ) : ℕ :=
  cprobs.findIdx (fun w => decide (c < w))

/-- `pauxy/walkers/handler.py` `Walkers.comb` incremental loop
(`iw = 0; ic = 0; while ic < len(comb): if comb[ic] < cprobs[iw]:
parent_ix[iw] += 1; ic += 1 else: iw += 1`), recorded as the list of walker
indices assigned to the teeth in order (`parent_ix[j]` is the number of
occurrences of `j`).  Each loop iteration consumes one unit of fuel;
`cprobs[iw]` is read with default `0` (the Python code would raise
`IndexError` out of bounds; under the stated hypotheses the index stays in
bounds and the fuel `len(comb) + len(cprobs)` suffices). -/
def comb_inc_assign (cprobs : List ℚ) : ℕ → ℕ → List ℚ → List ℕ
  | 0, _, _ => []
  | _+1, _, [] => []
  | fuel+1, iw, c :: rest =>
    if c < cprobs.getD iw 0 then iw :: comb_inc_assign cprobs fuel iw rest
    else comb_inc_assign cprobs fuel (iw+1) (c :: rest)

/-- Single-process embedding of `pauxy/walkers/handler.py` `Walkers.comb`:
gathered absolute weights, cumulative sums, teeth from one offset `r`,
incremental multiplicity counting, and the final weight reset to `1.0` for
every walker.  Returns the multiplicity function and the new weight list. -/
def handler_comb (ws : List ℚ) (r : ℚ) : (ℕ → ℕ) × List ℚ :=
  let weights := ws.map (fun w => |w|)
  let total := weights.sum
  let cprobs := cumsum weights
  let teeth := comb_teeth total ws.length r
  (fun j => (comb_inc_assign cprobs (teeth.length + cprobs.length) 0 teeth).count j,
   ws.map (fun _ => (1 : ℚ)))

/-- If the predicate holds at index `i`, `findIdx` is at most `i`. -/
lemma findIdx_le_of_pred {α : Type} {p : α → Bool} {l : List α} {i : ℕ}
    (h : i < l.length) (hp : p (l.get ⟨i, h⟩) = true) : l.findIdx p ≤ i := by
  by_contra hlt
  push_neg at hlt
  have := List.not_of_lt_findIdx hlt
  simp only [List.get_eq_getElem] at hp
  rw [this] at hp
  exact Bool.false_ne_true hp

/-- The total weight is one of the cumulative sums (the last one). -/
lemma sum_mem_cumsum : ∀ (ws : List ℚ), ws ≠ [] → ws.sum ∈ cumsum ws
  | [], h => absurd rfl h
  | w :: rest, _ => by
    cases hr : rest with
    | nil => simp [cumsum]
    | cons a l =>
      have hne : rest ≠ [] := by simp [hr]
      have ih := sum_mem_cumsum rest hne
      rw [← hr]
      have : w + rest.sum ∈ (cumsum rest).map (fun x => w + x) :=
        List.mem_map_of_mem (fun x => w + x) ih
      simp only [cumsum, List.sum_cons]
      exact List.mem_cons_of_mem _ this

/-- Merge-loop equivalence: with enough fuel, starting from walker pointer
`iw` that is a lower bound for every remaining tooth's bucket, the incremental
two-pointer loop of `handler.py` produces exactly the first-bucket-exceeding
assignment of `walker.py`, tooth by tooth. -/
lemma comb_inc_assign_eq_scan (cprobs : List ℚ) :
    ∀ (fuel iw : ℕ) (teeth : List ℚ),
      teeth.Pairwise (· ≤ ·) →
      (∀ c ∈ teeth, scan_assign cprobs c < cprobs.length) →
      (∀ c ∈ teeth, iw ≤ scan_assign cprobs c) →
      teeth.length + (cprobs.length - iw) ≤ fuel →
      comb_inc_assign cprobs fuel iw teeth = teeth.map (scan_assign cprobs) := by
  intro fuel
  induction fuel with
  | zero =>
    intro iw teeth _ _ _ hfuel
    have hlen : teeth.length = 0 := by omega
    rw [List.eq_nil_of_length_eq_zero hlen]
    rfl
  | succ fuel ih =>
    intro iw teeth hsort hfind hinv hfuel
    cases teeth with
    | nil => rfl
    | cons c rest =>
      have hmemc : c ∈ c :: rest := List.mem_cons_self c rest
      have hle : iw ≤ scan_assign cprobs c := hinv c hmemc
      have hflt : scan_assign cprobs c < cprobs.length := hfind c hmemc
      have hiwlt : iw < cprobs.length := lt_of_le_of_lt hle hflt
      by_cases hcw : c < cprobs.getD iw 0
      · -- the tooth falls in bucket `iw`: it is exactly the first exceeding bucket
        have hgd : cprobs.getD iw 0 = cprobs[iw] := List.getD_eq_getElem cprobs 0 hiwlt
        have hpi : (fun w => decide (c < w)) (cprobs.get ⟨iw, hiwlt⟩) = true := by
          simp only [List.get_eq_getElem, decide_eq_true_eq]
          rw [← hgd]
          exact hcw
        have hfle : scan_assign cprobs c ≤ iw := findIdx_le_of_pred hiwlt hpi
        have heq : scan_assign cprobs c = iw := le_antisymm hfle hle
        have hrest : comb_inc_assign cprobs fuel iw rest = rest.map (scan_assign cprobs) := by
          apply ih iw rest (List.Pairwise.of_cons hsort)
          · intro x hx; exact hfind x (List.mem_cons_of_mem _ hx)
          · intro x hx; exact hinv x (List.mem_cons_of_mem _ hx)
          · simp only [List.length_cons] at hfuel; omega
        simp only [comb_inc_assign, if_pos hcw, hrest, List.map_cons, heq]
      · -- bucket `iw` does not exceed the tooth: advance the walker pointer
        have hgd : cprobs.getD iw 0 = cprobs[iw] := List.getD_eq_getElem cprobs 0 hiwlt
        have hne : scan_assign cprobs c ≠ iw := by
          intro habs
          have hh : c < cprobs.get ⟨scan_assign cprobs c, hflt⟩ := by
            have := @List.findIdx_getElem _ (fun w => decide (c < w)) cprobs hflt
            simpa using this
          have hfin : (⟨scan_assign cprobs c, hflt⟩ : Fin cprobs.length)
              = ⟨iw, hiwlt⟩ := Fin.ext habs
          rw [hfin] at hh
          rw [hgd] at hcw
          exact hcw (by simpa using hh)
        have hlt2 : iw + 1 ≤ scan_assign cprobs c := by omega
        have hinv2 : ∀ x ∈ c :: rest, iw + 1 ≤ scan_assign cprobs x := by
          intro x hx
          rcases List.mem_cons.mp hx with hx | hx
          · subst hx; exact hlt2
          · -- later teeth are ≥ c, so their buckets are at least c's bucket
            have hcx : c ≤ x := List.rel_of_pairwise_cons hsort hx
            have hfx : scan_assign cprobs x < cprobs.length :=
              hfind x (List.mem_cons_of_mem _ hx)
            have hgx : (fun w => decide (c < w)) (cprobs.get ⟨scan_assign cprobs x, hfx⟩) = true := by
              simp only [List.get_eq_getElem, decide_eq_true_eq]
              have : x < cprobs[scan_assign cprobs x] := by
                have := @List.findIdx_getElem _ (fun w => decide (x < w)) cprobs hfx
                simpa using this
              exact lt_of_le_of_lt hcx this
            have : scan_assign cprobs c ≤ scan_assign cprobs x :=
              findIdx_le_of_pred hfx hgx
            omega
        have hstep : comb_inc_assign cprobs (fuel + 1) iw (c :: rest)
            = comb_inc_assign cprobs fuel (iw + 1) (c :: rest) := by
          simp only [comb_inc_assign, if_neg hcw]
        rw [hstep]
        apply ih (iw + 1) (c :: rest) hsort hfind hinv2
        simp only [List.length_cons] at hfuel ⊢
        omega

/-- The teeth are nondecreasing when the tooth spacing is nonnegative. -/
lemma comb_teeth_sorted (total : ℚ) (N : ℕ) (r : ℚ) (h : 0 ≤ total / (N : ℚ)) :
    (comb_teeth total N r).Pairwise (· ≤ ·) := by
  unfold comb_teeth
  refine List.Pairwise.map _ ?_ (List.pairwise_lt_range N)
  intro i j hij
  apply mul_le_mul_of_nonneg_right _ h
  have : (i : ℚ) ≤ (j : ℚ) := by exact_mod_cast le_of_lt hij
  linarith

/-- Every tooth lies strictly below the total weight. -/
lemma comb_teeth_lt_total (total : ℚ) (N : ℕ) (r : ℚ) (hN : 0 < N)
    (htot : 0 < total) (hr1 : r < 1) :
    ∀ c ∈ comb_teeth total N r, c < total := by
  intro c hc
  unfold comb_teeth at hc
  rcases List.mem_map.mp hc with ⟨i, hi, rfl⟩
  have hiN : i < N := List.mem_range.mp hi
  have hdiv : 0 < total / (N : ℚ) := div_pos htot (by exact_mod_cast hN)
  have h1 : ((i : ℚ) + r) < (N : ℚ) := by
    have : (i : ℚ) + 1 ≤ (N : ℚ) := by exact_mod_cast hiN
    linarith
  calc ((i : ℚ) + r) * (total / (N : ℚ)) < (N : ℚ) * (total / (N : ℚ)) :=
        mul_lt_mul_of_pos_right h1 hdiv
    _ = total := by
        field_simp

/-- Every tooth finds a bucket: its first-exceeding index is in range. -/
lemma comb_teeth_findIdx_lt (ws : List ℚ) (r : ℚ) (hr1 : r < 1)
    (htot : 0 < ws.sum) :
    ∀ c ∈ comb_teeth ws.sum ws.length r,
      scan_assign (cumsum ws) c < (cumsum ws).length := by
  have hne : ws ≠ [] := by
    intro h
    rw [h] at htot
    simp at htot
  have hN : 0 < ws.length := List.length_pos.mpr hne
  intro c hc
  apply List.findIdx_lt_length_of_exists
  refine ⟨ws.sum, sum_mem_cumsum ws hne, ?_⟩
  simp only [decide_eq_true_eq]
  exact comb_teeth_lt_total ws.sum ws.length r hN htot hr1 c hc

/-- C3: for every weight vector with positive total weight and every offset
`r ∈ [0,1)`, the incremental-counting comb assignment of
`pauxy/walkers/handler.py` produces, tooth by tooth, the same bucket as the
cumulative-bucket-scan assignment of `pauxy/walker.py`; in particular every
per-walker selection multiplicity coincides.  The two comb implementations
are equivalent. -/
theorem c3_comb_incremental_eq_bucket_scan (ws : List ℚ) (r : ℚ)
    (hr0 : 0 ≤ r) (hr1 : r < 1) (htot : 0 < ws.sum) :
    comb_inc_assign (cumsum ws)
        ((comb_teeth ws.sum ws.length r).length + (cumsum ws).length) 0
        (comb_teeth ws.sum ws.length r)
      = (comb_teeth ws.sum ws.length r).map (Pauxy.scan_assign (cumsum ws))
    ∧ ∀ j : ℕ, (comb_inc_assign (cumsum ws)
        ((comb_teeth ws.sum ws.length r).length + (cumsum ws).length) 0
        (comb_teeth ws.sum ws.length r)).count j
      = ((comb_teeth ws.sum ws.length r).map (Pauxy.scan_assign (cumsum ws))).count j := by
  have hne : ws ≠ [] := by
    intro h
    rw [h] at htot
    simp at htot
  have hN : 0 < ws.length := List.length_pos.mpr hne
  have hdiv : 0 ≤ ws.sum / (ws.length : ℚ) :=
    le_of_lt (div_pos htot (by exact_mod_cast hN))
  have heq := comb_inc_assign_eq_scan (cumsum ws)
    ((comb_teeth ws.sum ws.length r).length + (cumsum ws).length) 0
    (comb_teeth ws.sum ws.length r)
    (comb_teeth_sorted ws.sum ws.length r hdiv)
    (comb_teeth_findIdx_lt ws r hr1 htot)
    (fun c _ => Nat.zero_le _)
    (by omega)
  exact ⟨heq, fun j => by rw [heq]⟩

/-- Witness for C3 at the concrete weight vector `[2, -1, 1]` (positive total
weight `2`, one negative entry) and offset `r = 1/2`. -/
theorem c3_comb_incremental_eq_bucket_scan_witness :
    comb_inc_assign (cumsum [2, -1, 1])
        ((comb_teeth (List.sum [2, -1, 1]) 3 (1/2)).length + (cumsum [2, -1, 1]).length) 0
        (comb_teeth (List.sum [2, -1, 1]) 3 (1/2))
      = (comb_teeth (List.sum [2, -1, 1]) 3 (1/2)).map (Pauxy.scan_assign (cumsum [2, -1, 1])) := by
  have h := c3_comb_incremental_eq_bucket_scan [2, -1, 1] (1/2)
    (by norm_num) (by norm_num) (by norm_num)
  exact h.1

/-- C2: one comb step of `pauxy/walkers/handler.py` `Walkers.comb`: the
teeth are `(i+r)·(totalWeight/N_target)` for `i < N_target`, all built from
the single uniform offset `r`; the selection multiplicity of every walker
equals that of the first-bucket-exceeding assignment; and after reassignment
every walker's weight equals `1`. -/
theorem c2_handler_comb_step (ws : List ℚ) (r : ℚ)
    (hr0 : 0 ≤ r) (hr1 : r < 1)
    (htot : 0 < (ws.map (fun w => |w|)).sum) :
    (∀ i, i < ws.length →
       (comb_teeth (ws.map (fun w => |w|)).sum ws.length r).getD i 0
         = ((i : ℚ) + r) * ((ws.map (fun w => |w|)).sum / (ws.length : ℚ)))
    ∧ (∀ j : ℕ, (handler_comb ws r).1 j
         = ((comb_teeth (ws.map (fun w => |w|)).sum ws.length r).map
             (Pauxy.scan_assign (cumsum (ws.map (fun w => |w|))))).count j)
    ∧ (handler_comb ws r).2 = ws.map (fun _ => 1)
    ∧ (∀ x ∈ (handler_comb ws r).2, x = 1) := by
  have hlenmap : (ws.map (fun w => |w|)).length = ws.length := List.length_map ws _
  refine ⟨?_, ?_, rfl, ?_⟩
  · intro i hi
    have hlen : i < (comb_teeth (ws.map (fun w => |w|)).sum ws.length r).length := by
      simpa [comb_teeth] using hi
    rw [List.getD_eq_getElem _ _ hlen]
    simp [comb_teeth]
  · intro j
    have hne : ws.map (fun w => |w|) ≠ [] := by
      intro h
      rw [h] at htot
      simp at htot
    have hN : 0 < ws.length := by
      rw [← hlenmap]
      exact List.length_pos.mpr hne
    have hdiv : 0 ≤ (ws.map (fun w => |w|)).sum / ((ws.map (fun w => |w|)).length : ℚ) :=
      le_of_lt (div_pos htot (by rw [hlenmap]; exact_mod_cast hN))
    have heq := comb_inc_assign_eq_scan (cumsum (ws.map (fun w => |w|)))
      ((comb_teeth (ws.map (fun w => |w|)).sum ws.length r).length
        + (cumsum (ws.map (fun w => |w|))).length) 0
      (comb_teeth (ws.map (fun w => |w|)).sum ws.length r)
      (comb_teeth_sorted _ ws.length r (by rw [hlenmap] at hdiv; exact hdiv))
      (by
        have := comb_teeth_findIdx_lt (ws.map (fun w => |w|)) r hr1 htot
        rwa [hlenmap] at this)
      (fun c _ => Nat.zero_le _)
      (by omega)
    simp only [handler_comb]
    rw [heq]
  · intro x hx
    rcases List.mem_map.mp hx with ⟨_, _, rfl⟩
    rfl

/-- Witness for C2 at the concrete weight vector `[2, 1, 1]`, `r = 1/2`. -/
theorem c2_handler_comb_step_witness :
    (handler_comb [2, 1, 1] (1/2)).2 = List.map (fun _ => (1 : ℚ)) [2, 1, 1]
    ∧ ∀ x ∈ (handler_comb [2, 1, 1] (1/2)).2, x = 1 := by
  have h := c2_handler_comb_step [2, 1, 1] (1/2)
    (by norm_num) (by norm_num) (by norm_num)
  exact ⟨h.2.2.1, h.2.2.2⟩

/-! ## Branching population control (C6, C7)

`pauxy/walker.py`, `Walkers.rescale_weights` (lines 68-72) and
`Walkers.branching` (lines 152-186).  A walker is embedded as a pair
`(weight, alive)`. -/

/-- `Walkers.calculate_total_weight`:
`sum(w.weight for w in self.walkers if w.alive)`. -/
def calculate_total_weight (walkers : List (ℚ × Bool)) : ℚ :=
  ((walkers.filter (fun p => p.2)).map (fun p => p.1)).sum

/-- `Walkers.rescale_weights`: `factor = self.total_weight / self.max_nwalkers;
for w in self.walkers: w.weight /= factor` — every walker (dead ones included)
is divided by the one common factor. -/
def rescale_weights (max_nwalkers : ℚ) (walkers : List (ℚ × Bool)) :
    List (ℚ × Bool) :=
  let factor := calculate_total_weight walkers / max_nwalkers
  walkers.map (fun p => (p.1 / factor, p.2))

/-- Default `self.max_nwalkers = inputs.get('maximum_walker_count', 1.1*nwalkers)`
from `Walkers.__init__`. -/
def default_max_nwalkers (nwalkers : ℕ) : ℚ :=
  (11/10 : ℚ) * nwalkers

/-- One walker's decision in `Walkers.branching` (lines 159-171): returns
`(new weight, alive, number of clones)`.  With `w > wmax`:
`extra = floor(weight) - 1`, plus one more if `weight - (extra+1) > r`, and the
weight is reset to `1`.  With `w < wmin`: the walker is killed iff
`w.weight < r` (`if (w.weight < r): w.alive = 0`), its weight unchanged. -/
def branching_decision (wmax wmin w r : ℚ) : ℚ × Bool × ℤ :=
  if wmax < w then
    let extra : ℤ := ⌊w⌋ - 1
    let extra2 : ℤ := if r < w - ((extra : ℚ) + 1) then extra + 1 else extra
    (1, true, extra2)
  else if w < wmin then
    (w, if w < r then false else true, 0)
  else
    (w, true, 0)

/-- `Walkers.branching` entry: the step first rescales all weights by the
common factor `total/max_nwalkers`, then applies the per-walker clone/kill
decisions (`rs i` is walker `i`'s uniform draw).  The subsequent slot
reshuffling of clones is not needed by the claims and is not modelled. -/
def branching_pop_control (wmax wmin max_nwalkers : ℚ) (rs : ℕ → ℚ)
    (walkers : List (ℚ × Bool)) : List (ℚ × Bool × ℤ) :=
  let rescaled := rescale_weights max_nwalkers walkers
  rescaled.enum.map (fun p => branching_decision wmax wmin p.2.1 (rs p.1))

/-- Scaling every weight by a common factor scales the alive total. -/
lemma calculate_total_weight_map_div (walkers : List (ℚ × Bool)) (f : ℚ) :
    calculate_total_weight (walkers.map (fun p => (p.1 / f, p.2)))
      = calculate_total_weight walkers / f := by
  induction walkers with
  | nil => simp [calculate_total_weight]
  | cons p rest ih =>
    simp only [calculate_total_weight, List.map_cons, List.filter_cons] at ih ⊢
    by_cases hp : p.2 = true
    · simp only [hp, if_true, List.map_cons, List.sum_cons]
      rw [ih]
      ring
    · have hp2 : p.2 = false := Bool.eq_false_iff.mpr hp
      simp only [hp2, Bool.false_eq_true, if_false]
      exact ih

/-- C6 counterexample: `wmin = 1/20`, `weight = 1/25`, `r = 1/2`.  The claim
predicts survival (`r = 1/2 ≤ (w/wmin) = 4/5`, so not killed), but the code
kills the walker (`w.weight < r`).  The kill test is `weight < r`, not
`r > weight/wmin`. -/
theorem c6_counterexample :
    (Pauxy.branching_decision 4 (1/20) (1/25) (1/2)).2.1 = false
    ∧ ¬ ((1/2 : ℚ) > (1/25) / (1/20)) := by
  constructor
  · norm_num [Pauxy.branching_decision]
  · norm_num

/-- C6 (amended): during branching, a walker with `weight < wmin` is killed
iff its (rescaled) weight is below the uniform draw, `weight < r` — i.e. with
probability `1 − weight` for weights in `[0,1]`, not `1 − weight/wmin`; its
weight is left unchanged by the decision. -/
theorem c6_branching_kill_rule (wmax wmin w r : ℚ)
    (hw : w < wmin) (hwm : ¬ wmax < w) :
    ((Pauxy.branching_decision wmax wmin w r).2.1 = false ↔ w < r)
    ∧ (Pauxy.branching_decision wmax wmin w r).1 = w := by
  unfold Pauxy.branching_decision
  rw [if_neg hwm, if_pos hw]
  constructor
  · by_cases hk : w < r
    · simp [hk]
    · simp [hk]
  · rfl

/-- Witness for C6 (amended): `wmax = 4`, `wmin = 1/20`, `w = 1/25`,
`r = 1/2`: the walker is killed because `1/25 < 1/2`. -/
theorem c6_branching_kill_rule_witness :
    ((Pauxy.branching_decision 4 (1/20) (1/25) (1/3)).2.1 = false ↔ (1/25 : ℚ) < 1/3)
    ∧ (Pauxy.branching_decision 4 (1/20) (1/25) (1/3)).1 = 1/25 :=
  c6_branching_kill_rule 4 (1/20) (1/25) (1/3) (by norm_num) (by norm_num)

/-- C7 counterexample: two alive walkers of weight `1` (target population 2,
default `max_nwalkers = 1.1 * 2 = 11/5`).  After `rescale_weights` the total
weight is `11/5`, not the target population size `2`, and `branching` calls
`rescale_weights` with `self.max_nwalkers`. -/
theorem c7_counterexample :
    Pauxy.calculate_total_weight
        (Pauxy.rescale_weights (Pauxy.default_max_nwalkers 2) [(1, true), (1, true)])
      = 11/5
    ∧ (11/5 : ℚ) ≠ (2 : ℕ) := by
  constructor
  · norm_num [Pauxy.calculate_total_weight, Pauxy.rescale_weights,
      Pauxy.default_max_nwalkers, List.filter]
  · norm_num

/-- C7 (amended): every branching step begins by rescaling all walker weights
(dead ones included) by the single common factor `total/max_nwalkers`, after
which the total alive weight equals `max_nwalkers` — the maximum walker count
(default `1.1 ×` the target population) — not the target population size. -/
theorem c7_branching_rescale (wmax wmin max_nwalkers : ℚ) (rs : ℕ → ℚ)
    (walkers : List (ℚ × Bool))
    (htot : Pauxy.calculate_total_weight walkers ≠ 0)
    (hmax : max_nwalkers ≠ 0) :
    Pauxy.branching_pop_control wmax wmin max_nwalkers rs walkers
      = (Pauxy.rescale_weights max_nwalkers walkers).enum.map
          (fun p => Pauxy.branching_decision wmax wmin p.2.1 (rs p.1))
    ∧ Pauxy.rescale_weights max_nwalkers walkers
      = walkers.map (fun p =>
          (p.1 / (Pauxy.calculate_total_weight walkers / max_nwalkers), p.2))
    ∧ Pauxy.calculate_total_weight (Pauxy.rescale_weights max_nwalkers walkers)
      = max_nwalkers := by
  refine ⟨rfl, rfl, ?_⟩
  unfold Pauxy.rescale_weights
  rw [Pauxy.calculate_total_weight_map_div]
  field_simp

/-- Witness for C7 (amended): walkers `[(1, true), (2, true)]`,
`max_nwalkers = 33/10`: the rescaled alive total is `33/10`. -/
theorem c7_branching_rescale_witness :
    Pauxy.calculate_total_weight
        (Pauxy.rescale_weights (33/10) [((1 : ℚ), true), (2, true)])
      = 33/10 :=
  (c7_branching_rescale 4 (1/20) (33/10) (fun _ => 0) [((1 : ℚ), true), (2, true)]
    (by norm_num [Pauxy.calculate_total_weight, List.filter]) (by norm_num)).2.2

/-! ## `pauxy/propagation/continuous.py` (C4, C10)

`Continuous.propagate_walker_phaseless` hybrid weight update (lines 168-191),
and the `Continuous.two_body_propagator` failure analysis (lines 72-119). -/

/-- The walker state touched by the hybrid phaseless update. -/
structure PWalker where
  weight : ℝ
  ot : ℂ

/-- `Continuous.__init__`: `self.mf_const_fac = 1`. -/
def mf_const_fac : ℂ := 1

/-- The hybrid phaseless update of `Continuous.propagate_walker_phaseless`
(lines 172-191), as a function of the recomputed overlap `ot_new` and the
two-body constants `cfb`, `cmf`.  The float predicate `math.isinf(magn)` has
no counterpart for exact reals (`Complex.abs ∘ Complex.exp` is always finite);
it is therefore supplied as the boolean input `magn_finite`, `true` meaning
`not math.isinf(magn)`.  The recorded field configuration (`push_full`) is not
modelled. -/
noncomputable def propagate_phaseless_update (w : PWalker)
    (ot_new cfb cmf : ℂ) (magn_finite : Bool) : PWalker :=
  let hybrid_energy := Complex.log ot_new - Complex.log w.ot + cfb + cmf
  let importance_function := mf_const_fac * Complex.exp hybrid_energy
  let magn := Complex.abs importance_function
  if magn_finite then
    let dtheta := Complex.arg (Complex.exp (hybrid_energy - cfb))
    let cosine_fac := max 0 (Real.cos dtheta)
    { weight := w.weight * (magn * cosine_fac), ot := ot_new }
  else
    { weight := 0, ot := ot_new }

/-- C4: the hybrid log overlap ratio is
`Δ = log(ot_new) − log(ot_old) + cfb + cmf`; when the magnitude is finite the
walker's weight is multiplied by `|exp Δ|·max(0, cos θ)` with
`θ = Arg(exp(Δ − cfb))` (the overlap-ratio phase excluding the `cfb` shift)
and `ot` is set to `ot_new`; when the magnitude is non-finite the weight is
set to `0` (and `ot` is still set to `ot_new`). -/
theorem c4_phaseless_hybrid_update (w : Pauxy.PWalker)
    (ot_new cfb cmf : ℂ) (magn_finite : Bool) :
    (Pauxy.propagate_phaseless_update w ot_new cfb cmf magn_finite).weight
      = (if magn_finite then
          w.weight
            * (Complex.abs (Complex.exp
                (Complex.log ot_new - Complex.log w.ot + cfb + cmf))
              * max 0 (Real.cos (Complex.arg (Complex.exp
                ((Complex.log ot_new - Complex.log w.ot + cfb + cmf) - cfb)))))
         else 0)
    ∧ (Pauxy.propagate_phaseless_update w ot_new cfb cmf magn_finite).ot = ot_new := by
  cases magn_finite with
  | false =>
    constructor
    · simp [Pauxy.propagate_phaseless_update]
    · simp [Pauxy.propagate_phaseless_update]
  | true =>
    constructor
    · simp [Pauxy.propagate_phaseless_update, Pauxy.mf_const_fac]
    · simp [Pauxy.propagate_phaseless_update]

/-! ### `Continuous.two_body_propagator` (C10)

`Continuous.__init__` (lines 4-41) assigns exactly the attributes listed
below; in particular it never assigns `self.mf_shift` nor `self.propagator`
(and the only vector-valued attribute it assigns is `self.vbias`, a zero
vector).  `two_body_propagator` (lines 72-119) binds the local names `xi`,
`xbar`, `xshifted` and then evaluates `shifted.dot(self.mf_shift)` — `shifted`
is unbound, and with `force_bias=True` it first evaluates
`self.propagator.construct_force_bias(...)`.  Python name/attribute lookup is
modelled by association-list lookup; a failed lookup is the raised
`NameError`/`AttributeError`. -/

/-- Python exceptions relevant here. -/
inductive PyErr where
  | nameError : PyErr
  | attributeError : PyErr
deriving DecidableEq

/-- The attribute names assigned by `Continuous.__init__` (lines 4-41). -/
def continuous_init_attrs : List String :=
  ["free_projection", "exp_nmax", "dt", "sqrt_dt", "isqrt_dt", "num_vplus",
   "vbias", "mf_const_fac", "BT_BP", "nstblz", "Temp", "ebound",
   "mean_local_energy", "propagate_walker"]

/-- The vector-valued local variables bound in `two_body_propagator` up to the
`cmf` line: `xi` (the sampled fields), `xbar` (the clipped force bias) and
`xshifted = xi - xbar`.  No assignment binds the name `shifted`. -/
def two_body_locals {nf : ℕ} (xi xbar xshifted : Fin nf → ℝ) :
    List (String × (Fin nf → ℝ)) :=
  [("xi", xi), ("xbar", xbar), ("xshifted", xshifted)]

/-- The vector-valued attributes assigned by `Continuous.__init__`: only
`self.vbias = numpy.zeros(system.nfields)`.  `mf_shift` is absent. -/
def continuous_vec_attrs (nf : ℕ) : List (String × (Fin nf → ℂ)) :=
  [("vbias", fun _ => 0)]

/-- The walker state touched by continuous propagation. -/
structure CWalker (nb ne : ℕ) where
  phi : Matrix (Fin nb) (Fin ne) ℂ
  weight : ℝ
  phase : ℂ
  ot : ℂ

/-- Modelled from the spec: `kinetic_real` is imported by
`pauxy/propagation/continuous.py` but its module is not among the sources;
§4.2 describes it as applying the half one-body kinetic propagator `BH1` to
the walker amplitude `Φ` (and it does not touch the weight). -/
noncomputable def kinetic_real {nb ne : ℕ} (BH1 : Matrix (Fin nb) (Fin nb) ℂ)
    (phi : Matrix (Fin nb) (Fin ne) ℂ) : Matrix (Fin nb) (Fin ne) ℂ :=
  BH1 * phi

/-- Embedding of `Continuous.two_body_propagator(walker, system, force_bias)`
(lines 72-119).  `xi` is the Gaussian draw.  With `force_bias=True` the code
evaluates `self.propagator.construct_force_bias(...)`: `propagator` is not
among `continuous_init_attrs`, so an `AttributeError` is raised.  Otherwise
`xbar` stays the zero vector, the clipping loop and `xshifted = xi - xbar`
run, and the `cmf` line resolves the name `shifted`, which is not among the
bound locals: `NameError`.  The branches behind a successful lookup transcribe
the remaining source lines and are unreachable (the walker state is only
mutated from line 115 on, after the failing line 107). -/
noncomputable def two_body_propagator {nb ne nf : ℕ} (sqrt_dt : ℝ)
    (w : CWalker nb ne) (xi : Fin nf → ℝ) (force_bias : Bool) :
    CWalker nb ne × Except PyErr (ℂ × ℝ × (Fin nf → ℝ)) :=
  -- xbar = numpy.zeros(system.nfields)
  let xbar0 : Fin nf → ℝ := fun _ => 0
  if force_bias = true ∧ "propagator" ∉ continuous_init_attrs then
    (w, .error .attributeError)
  else
    -- reached only with force_bias = False (see the theorem): xbar stays zero
    let xbar := xbar0
    -- rescaling loop: for i in range(nfields): if |xbar[i]| > 1: xbar[i] /= |xbar[i]|
    let xbarC : Fin nf → ℝ := fun i => if 1 < |xbar i| then xbar i / |xbar i| else xbar i
    let xshifted : Fin nf → ℝ := fun i => xi i - xbarC i
    -- cmf = -self.sqrt_dt * shifted.dot(self.mf_shift)
    match (two_body_locals xi xbarC xshifted).lookup "shifted" with
    | none => (w, .error .nameError)
    | some shifted =>
      match (continuous_vec_attrs nf).lookup "mf_shift" with
      | none => (w, .error .attributeError)
      | some mf_shift =>
        let cmf : ℂ := -(sqrt_dt : ℂ) * ∑ i, (shifted i : ℂ) * mf_shift i
        let cfb : ℝ := (∑ i, xi i * xbarC i) - (1/2) * ∑ i, xbarC i * xbarC i
        -- VHS = self.propagator.construct_VHS(system, xshifted):
        -- `propagator` is, again, not an attribute of the object
        (w, .error .attributeError)

/-- `Continuous.propagate_walker_free` (lines 121-146): half kinetic step,
two-body propagator, then (unreachably, since the two-body propagator always
raises) the second kinetic step and the weight/phase update by the polar parts
of `exp(cmf)`.  The overlap/Green's function recomputations of the unreachable
tail are not modelled. -/
noncomputable def propagate_walker_free_emb {nb ne nf : ℕ}
    (BH1 : Matrix (Fin nb) (Fin nb) ℂ) (sqrt_dt : ℝ)
    (w : CWalker nb ne) (xi : Fin nf → ℝ) :
    CWalker nb ne × Except PyErr Unit :=
  let w1 : CWalker nb ne := { w with phi := kinetic_real BH1 w.phi }
  match two_body_propagator sqrt_dt w1 xi false with
  | (w2, .error e) => (w2, .error e)
  | (w2, .ok (cmf, _cfb, _xmxbar)) =>
    let w3 : CWalker nb ne := { w2 with phi := kinetic_real BH1 w2.phi }
    let magn := Complex.abs (Complex.exp cmf)
    let dtheta := Complex.arg (Complex.exp cmf)
    ({ w3 with weight := w3.weight * magn,
               phase := w3.phase * Complex.exp (Complex.I * dtheta) }, .ok ())

/-- `Continuous.propagate_walker_phaseless` (lines 148-191): half kinetic
step, two-body propagator with the default `force_bias=True`, then
(unreachably) the second kinetic step and the hybrid update
`propagate_phaseless_update`; the unreachable recomputation of `ot_new` from
the trial state is kept abstract as the walker's current overlap. -/
noncomputable def propagate_walker_phaseless_emb {nb ne nf : ℕ}
    (BH1 : Matrix (Fin nb) (Fin nb) ℂ) (sqrt_dt : ℝ)
    (w : CWalker nb ne) (xi : Fin nf → ℝ) :
    CWalker nb ne × Except PyErr Unit :=
  let w1 : CWalker nb ne := { w with phi := kinetic_real BH1 w.phi }
  match two_body_propagator sqrt_dt w1 xi true with
  | (w2, .error e) => (w2, .error e)
  | (w2, .ok (cmf, cfb, _xmxbar)) =>
    let w3 : CWalker nb ne := { w2 with phi := kinetic_real BH1 w2.phi }
    let upd := propagate_phaseless_update { weight := w3.weight, ot := w3.ot }
      w3.ot (cfb : ℂ) cmf true
    ({ w3 with weight := upd.weight, ot := upd.ot }, .ok ())

/-- C10 counterexample: a concrete phaseless invocation raises
`AttributeError` (at the `self.propagator.construct_force_bias` line, which
runs first because `propagate_walker_phaseless` calls the two-body propagator
with the default `force_bias=True`), not a `NameError`. -/
theorem c10_counterexample :
    (Pauxy.propagate_walker_phaseless_emb 1 1 (⟨0, 1, 1, 1⟩ : Pauxy.CWalker 1 1)
        (fun _ : Fin 1 => 0)).2
      = Except.error Pauxy.PyErr.attributeError
    ∧ Pauxy.PyErr.attributeError ≠ Pauxy.PyErr.nameError := by
  constructor
  · rfl
  · intro h
    exact Pauxy.PyErr.noConfusion h

/-- C10 (amended): every invocation of `Continuous.two_body_propagator`
raises before any weight update — a `NameError` at the
`cmf = -self.sqrt_dt * shifted.dot(self.mf_shift)` line when
`force_bias=False` (the `propagate_walker_free` path, since `shifted` is
never bound), and an `AttributeError` at the
`self.propagator.construct_force_bias` line when `force_bias=True` (the
`propagate_walker_phaseless` path, since `self.propagator` is never assigned
in `Continuous.__init__`, where `self.mf_shift` is also never assigned).  In
both propagation modes the walker's weight is unchanged when the exception
propagates: the weight-update branches are unreachable through this entry
point. -/
theorem c10_two_body_propagator_always_raises {nb ne nf : ℕ}
    (BH1 : Matrix (Fin nb) (Fin nb) ℂ) (sqrt_dt : ℝ)
    (w : Pauxy.CWalker nb ne) (xi : Fin nf → ℝ) :
    (Pauxy.two_body_propagator sqrt_dt w xi false).2
        = Except.error Pauxy.PyErr.nameError
    ∧ (Pauxy.two_body_propagator sqrt_dt w xi true).2
        = Except.error Pauxy.PyErr.attributeError
    ∧ "mf_shift" ∉ Pauxy.continuous_init_attrs
    ∧ (Pauxy.propagate_walker_free_emb BH1 sqrt_dt w xi).2
        = Except.error Pauxy.PyErr.nameError
    ∧ (Pauxy.propagate_walker_free_emb BH1 sqrt_dt w xi).1.weight = w.weight
    ∧ (Pauxy.propagate_walker_phaseless_emb BH1 sqrt_dt w xi).2
        = Except.error Pauxy.PyErr.attributeError
    ∧ (Pauxy.propagate_walker_phaseless_emb BH1 sqrt_dt w xi).1.weight = w.weight := by
  refine ⟨rfl, rfl, by decide, rfl, rfl, rfl, rfl⟩

/-! ## `pauxy/thermal_propagation/hubbard.py`: constrained discrete propagation (C5)

`ThermalDiscrete.propagate_walker_constrained` (lines 122-147).  The per-site
loop over the lattice is embedded; the trailing stack update and periodic
Green's function recomputation (lines 141-147) concern the `PropagatorStack`
and are outside what the claim tests.  `delta = auxf - 1` and `auxf` are the
discrete HS constants (`delta xi spin`); `rs i` is the uniform draw consumed
at site `i` (the draw happens every iteration, before the `norm` test). -/

/-- The walker state touched by a constrained discrete sweep. -/
structure TWalker (ns : ℕ) where
  weight : ℝ
  G : Fin 2 → Matrix (Fin ns) (Fin ns) ℂ
  BV : Fin 2 → Fin ns → ℂ

/-- `ThermalDiscrete.calculate_overlap_ratio(walker, i)`:
`0.5 * [R1_up*R1_dn, R2_up*R2_dn]` with
`R(xi)_spin = 1 + (1 - G[spin,i,i]) * delta[xi,spin]`. -/
noncomputable def calculate_overlap_ratio {ns : ℕ} (delta : Fin 2 → Fin 2 → ℂ)
    (G : Fin 2 → Matrix (Fin ns) (Fin ns) ℂ) (i : Fin ns) : Fin 2 → ℂ :=
  fun xi => (1/2) * ((1 + (1 - G 0 i i) * delta xi 0)
    * (1 + (1 - G 1 i i) * delta xi 1))

/-- `ThermalDiscrete.update_greens_function(walker, i, xi)`: per spin,
`g = G[spin,:,i]`, `gbar = -G[spin,i,:]; gbar[i] += 1`,
`denom = 1 + (1-g[i])*delta[xi,spin]`,
`G[spin] -= delta[xi,spin] * outer(g, gbar) / denom`. -/
noncomputable def update_greens_function {ns : ℕ} (delta : Fin 2 → Fin 2 → ℂ)
    (G : Fin 2 → Matrix (Fin ns) (Fin ns) ℂ) (i : Fin ns) (xi : Fin 2) :
    Fin 2 → Matrix (Fin ns) (Fin ns) ℂ :=
  fun spin =>
    let g : Fin ns → ℂ := fun k => G spin k i
    let gbar : Fin ns → ℂ := fun k => -G spin i k + (if k = i then 1 else 0)
    let denom : ℂ := 1 + (1 - g i) * delta xi spin
    Matrix.of fun k l => G spin k l - delta xi spin * (g k * gbar l) / denom

/-- The clipped local ratios `numpy.maximum(probs.real, [0,0])`. -/
noncomputable def clipped_ratio {ns : ℕ} (delta : Fin 2 → Fin 2 → ℂ)
    (G : Fin 2 → Matrix (Fin ns) (Fin ns) ℂ) (i : Fin ns) : Fin 2 → ℝ :=
  fun xi => max (calculate_overlap_ratio delta G i xi).re 0

/-- The normalization `norm = sum(phaseless_ratio)`. -/
noncomputable def site_norm {ns : ℕ} (delta : Fin 2 → Fin 2 → ℂ)
    (G : Fin 2 → Matrix (Fin ns) (Fin ns) ℂ) (i : Fin ns) : ℝ :=
  clipped_ratio delta G i 0 + clipped_ratio delta G i 1

/-- Inverse-CDF sampling of the field from the normalized clipped ratios:
`xi = 0 if r < phaseless_ratio[0]/norm else 1`. -/
noncomputable def sampled_field {ns : ℕ} (delta : Fin 2 → Fin 2 → ℂ)
    (G : Fin 2 → Matrix (Fin ns) (Fin ns) ℂ) (i : Fin ns) (r : ℝ) : Fin 2 :=
  if r < clipped_ratio delta G i 0 / site_norm delta G i then 0 else 1

/-- One site `i` of `propagate_walker_constrained`: if `norm > 0`, the weight
is multiplied by `norm * exp(eshift)`, the field is sampled by inverse-CDF,
and the Green's function and `BV` column are updated; otherwise
(`norm = 0`) the walker's weight is set to `0` and the site makes no other
change — and the loop continues with the next site (there is no `break`). -/
noncomputable def propagate_step {ns : ℕ} (delta auxf : Fin 2 → Fin 2 → ℂ)
    (eshift : ℝ) (st : TWalker ns) (i : Fin ns) (r : ℝ) : TWalker ns :=
  if 0 < site_norm delta st.G i then
    let xi := sampled_field delta st.G i r
    { weight := st.weight * site_norm delta st.G i * Real.exp eshift,
      G := update_greens_function delta st.G i xi,
      BV := fun s k => if k = i then auxf xi s else st.BV s k }
  else
    { st with weight := 0 }

/-- The site loop `for i in range(0, system.nbasis)` of
`propagate_walker_constrained`. -/
noncomputable def propagate_walker_constrained_sweep {ns : ℕ}
    (delta auxf : Fin 2 → Fin 2 → ℂ) (eshift : ℝ) (rs : Fin ns → ℝ)
    (st : TWalker ns) : TWalker ns :=
  (List.finRange ns).foldl
    (fun s i => propagate_step delta auxf eshift s i (rs i)) st

/-- A walker whose weight is already `0` keeps weight `0` through any site. -/
lemma propagate_step_weight_zero {ns : ℕ} (delta auxf : Fin 2 → Fin 2 → ℂ)
    (eshift : ℝ) (st : TWalker ns) (i : Fin ns) (r : ℝ)
    (h : st.weight = 0) :
    (propagate_step delta auxf eshift st i r).weight = 0 := by
  unfold propagate_step
  by_cases hn : 0 < site_norm delta st.G i
  · simp [hn, h]
  · simp [hn]

/-- A walker whose weight is `0` keeps weight `0` through the whole sweep. -/
lemma sweep_weight_zero {ns : ℕ} (delta auxf : Fin 2 → Fin 2 → ℂ)
    (eshift : ℝ) (rs : Fin ns → ℝ) (st : TWalker ns) (h : st.weight = 0) :
    (propagate_walker_constrained_sweep delta auxf eshift rs st).weight = 0 := by
  unfold propagate_walker_constrained_sweep
  generalize (List.finRange ns) = l
  induction l generalizing st with
  | nil => simpa using h
  | cons i rest ih =>
    simp only [List.foldl_cons]
    exact ih _ (propagate_step_weight_zero delta auxf eshift st i (rs i) h)

/-- Concrete discrete HS constants for the C5 counterexample:
`delta xi spin = -2` for spin up, `0` for spin down (any `xi`). -/
noncomputable def c5Delta : Fin 2 → Fin 2 → ℂ := fun _ s => if s = 0 then -2 else 0

/-- Concrete `auxf` for the C5 counterexample. -/
noncomputable def c5Auxf : Fin 2 → Fin 2 → ℂ := fun _ _ => 5

/-- Concrete Green's function: site 0 is killed
(`probs = -1/2` both fields), site 1 has `norm = 1`. -/
noncomputable def c5G : Fin 2 → Matrix (Fin 2) (Fin 2) ℂ :=
  fun s => if s = 0 then !![0, 0; 1, 1] else 1

/-- Concrete start walker for the C5 counterexample. -/
noncomputable def c5Start : TWalker 2 :=
  { weight := 1, G := c5G, BV := fun _ _ => 0 }

/-- Concrete start walker with identity Green's functions (`norm = 1` at
site 0) for the `exp(eshift)` part of the C5 counterexample. -/
noncomputable def c5StartE : TWalker 2 :=
  { weight := 1, G := fun _ => 1, BV := fun _ _ => 0 }

/-- C5 counterexample: starting from `c5Start`, site 0 has normalization `0`,
so the walker is killed there — but the sweep does not stop: site 1 is still
processed (its sampled auxiliary field is written into `BV`, which the claim's
"stop processing the remaining sites" would leave untouched at `0`).  Also,
with `eshift = 1` the weight is multiplied by `norm * exp(eshift)`, not by the
normalization constant alone: from weight `1` and `norm = 1` the code produces
`exp 1 ≠ 1`. -/
theorem c5_counterexample :
    Pauxy.site_norm Pauxy.c5Delta Pauxy.c5Start.G 0 = 0
    ∧ (Pauxy.propagate_walker_constrained_sweep Pauxy.c5Delta Pauxy.c5Auxf 0
        (fun _ => 3/10) Pauxy.c5Start).weight = 0
    ∧ (Pauxy.propagate_walker_constrained_sweep Pauxy.c5Delta Pauxy.c5Auxf 0
        (fun _ => 3/10) Pauxy.c5Start).BV 0 1 = 5
    ∧ Pauxy.c5Start.BV 0 1 = 0
    ∧ (5 : ℂ) ≠ 0
    ∧ (Pauxy.propagate_step Pauxy.c5Delta Pauxy.c5Auxf 1 Pauxy.c5StartE 0 (1/2)).weight
        = Real.exp 1
    ∧ Pauxy.c5StartE.weight * Pauxy.site_norm Pauxy.c5Delta Pauxy.c5StartE.G 0 = 1
    ∧ Real.exp 1 ≠ 1 := by
  have hofr : ((-(1/2) : ℝ) : ℂ) = -(1/2) := by
    push_cast
    ring
  have hofr2 : (((1/2) : ℝ) : ℂ) = (1/2) := by
    push_cast
    ring
  -- site 0 of c5Start: both local ratios are -1/2
  have hprobs0 : ∀ xi, Pauxy.calculate_overlap_ratio Pauxy.c5Delta Pauxy.c5G 0 xi
      = ((-(1/2) : ℝ) : ℂ) := by
    intro xi
    rw [hofr]
    simp [Pauxy.calculate_overlap_ratio, Pauxy.c5Delta, Pauxy.c5G, Matrix.one_apply]
    norm_num
  have hclip0 : ∀ xi, Pauxy.clipped_ratio Pauxy.c5Delta Pauxy.c5G 0 xi = 0 := by
    intro xi
    rw [Pauxy.clipped_ratio, hprobs0 xi, Complex.ofReal_re]
    norm_num
  have hnorm0 : Pauxy.site_norm Pauxy.c5Delta Pauxy.c5G 0 = 0 := by
    rw [Pauxy.site_norm, hclip0, hclip0]
    norm_num
  -- the step at site 0 kills the walker and changes nothing else
  have hstep0 : Pauxy.propagate_step Pauxy.c5Delta Pauxy.c5Auxf 0 Pauxy.c5Start 0 (3/10)
      = { Pauxy.c5Start with weight := 0 } := by
    have hno : ¬ 0 < Pauxy.site_norm Pauxy.c5Delta Pauxy.c5Start.G 0 := by
      rw [show Pauxy.c5Start.G = Pauxy.c5G from rfl, hnorm0]
      norm_num
    rw [Pauxy.propagate_step, if_neg hno]
  -- site 1 of c5Start: both local ratios are 1/2, norm = 1
  have hprobs1 : ∀ xi, Pauxy.calculate_overlap_ratio Pauxy.c5Delta Pauxy.c5G 1 xi
      = (((1/2) : ℝ) : ℂ) := by
    intro xi
    rw [hofr2]
    simp [Pauxy.calculate_overlap_ratio, Pauxy.c5Delta, Pauxy.c5G, Matrix.one_apply]
  have hclip1 : ∀ xi, Pauxy.clipped_ratio Pauxy.c5Delta Pauxy.c5G 1 xi = 1/2 := by
    intro xi
    rw [Pauxy.clipped_ratio, hprobs1 xi, Complex.ofReal_re]
    norm_num
  have hnorm1 : Pauxy.site_norm Pauxy.c5Delta Pauxy.c5G 1 = 1 := by
    rw [Pauxy.site_norm, hclip1, hclip1]
    norm_num
  have hfield1 : Pauxy.sampled_field Pauxy.c5Delta Pauxy.c5G 1 (3/10) = 0 := by
    rw [Pauxy.sampled_field, hclip1, hnorm1]
    norm_num
  -- the sweep is the two steps in order
  have hsweep : Pauxy.propagate_walker_constrained_sweep Pauxy.c5Delta Pauxy.c5Auxf 0
      (fun _ => 3/10) Pauxy.c5Start
      = Pauxy.propagate_step Pauxy.c5Delta Pauxy.c5Auxf 0
          (Pauxy.propagate_step Pauxy.c5Delta Pauxy.c5Auxf 0 Pauxy.c5Start 0 (3/10))
          1 (3/10) := by
    rw [Pauxy.propagate_walker_constrained_sweep]
    have h2 : (List.finRange 2) = [0, 1] := by decide
    rw [h2]
    rfl
  have hstep1 : Pauxy.propagate_step Pauxy.c5Delta Pauxy.c5Auxf 0
      { Pauxy.c5Start with weight := 0 } 1 (3/10)
      = { weight := 0 * Pauxy.site_norm Pauxy.c5Delta Pauxy.c5G 1 * Real.exp 0,
          G := Pauxy.update_greens_function Pauxy.c5Delta Pauxy.c5G 1
            (Pauxy.sampled_field Pauxy.c5Delta Pauxy.c5G 1 (3/10)),
          BV := fun s k => if k = 1 then Pauxy.c5Auxf
            (Pauxy.sampled_field Pauxy.c5Delta Pauxy.c5G 1 (3/10)) s
            else Pauxy.c5Start.BV s k } := by
    rw [Pauxy.propagate_step]
    have hG : ({ Pauxy.c5Start with weight := 0 } : Pauxy.TWalker 2).G = Pauxy.c5G := rfl
    rw [hG]
    rw [if_pos (by rw [hnorm1]; norm_num)]
  -- site 0 of c5StartE: both local ratios are 1/2, norm = 1
  have hprobsE : ∀ xi, Pauxy.calculate_overlap_ratio Pauxy.c5Delta Pauxy.c5StartE.G 0 xi
      = (((1/2) : ℝ) : ℂ) := by
    intro xi
    rw [hofr2]
    simp [Pauxy.calculate_overlap_ratio, Pauxy.c5Delta, Pauxy.c5StartE, Matrix.one_apply]
  have hclipE : ∀ xi, Pauxy.clipped_ratio Pauxy.c5Delta Pauxy.c5StartE.G 0 xi = 1/2 := by
    intro xi
    rw [Pauxy.clipped_ratio, hprobsE xi, Complex.ofReal_re]
    norm_num
  have hnormE : Pauxy.site_norm Pauxy.c5Delta Pauxy.c5StartE.G 0 = 1 := by
    rw [Pauxy.site_norm, hclipE, hclipE]
    norm_num
  refine ⟨hnorm0, ?_, ?_, rfl, by norm_num, ?_, ?_, ?_⟩
  · rw [hsweep, hstep0, hstep1]
    norm_num
  · rw [hsweep, hstep0, hstep1]
    simp [Pauxy.c5Auxf]
  · rw [Pauxy.propagate_step, if_pos (by rw [hnormE]; norm_num), hnormE]
    show (1 : ℝ) * 1 * Real.exp 1 = Real.exp 1
    ring
  · rw [hnormE]
    norm_num [Pauxy.c5StartE]
  · intro h
    rw [Real.exp_eq_one_iff] at h
    norm_num at h

/-- C5 (amended): at every site of the constrained discrete sweep the two
local overlap ratios are clipped at `0`; when their sum `norm` is positive the
walker's weight is multiplied by `norm * exp(eshift)` (`eshift` is `0` at
every call site in the sources), the field is sampled by inverse-CDF from the
normalized clipped ratios, and the Green's function and `BV` are updated; when
`norm = 0` the walker's weight is set to `0` and the site changes nothing
else — the loop then continues with the remaining sites (no break), the
walker's weight staying `0` to the end of the sweep. -/
theorem c5_constrained_discrete_semantics {ns : ℕ}
    (delta auxf : Fin 2 → Fin 2 → ℂ) (eshift : ℝ) (st : Pauxy.TWalker ns)
    (i : Fin ns) (r : ℝ) (rs : Fin ns → ℝ) (st0 : Pauxy.TWalker ns)
    (hdead : st0.weight = 0) :
    (0 < Pauxy.site_norm delta st.G i →
      Pauxy.propagate_step delta auxf eshift st i r
        = { weight := st.weight * Pauxy.site_norm delta st.G i * Real.exp eshift,
            G := Pauxy.update_greens_function delta st.G i
              (Pauxy.sampled_field delta st.G i r),
            BV := fun s k => if k = i
              then auxf (Pauxy.sampled_field delta st.G i r) s else st.BV s k })
    ∧ (¬ 0 < Pauxy.site_norm delta st.G i →
      Pauxy.propagate_step delta auxf eshift st i r = { st with weight := 0 })
    ∧ (Pauxy.propagate_walker_constrained_sweep delta auxf eshift rs st0).weight
        = 0 := by
  refine ⟨?_, ?_, Pauxy.sweep_weight_zero delta auxf eshift rs st0 hdead⟩
  · intro h
    rw [Pauxy.propagate_step, if_pos h]
  · intro h
    rw [Pauxy.propagate_step, if_neg h]

/-- Witness for C5 (amended) at a concrete dead walker (`ns = 1`, all data
zero). -/
theorem c5_constrained_discrete_semantics_witness :
    (Pauxy.propagate_walker_constrained_sweep (fun _ _ => 0) (fun _ _ => 0)
        0 (fun _ => 0)
        (⟨0, fun _ => 0, fun _ _ => 0⟩ : Pauxy.TWalker 1)).weight = 0 :=
  (c5_constrained_discrete_semantics (fun _ _ => 0) (fun _ _ => 0) 0
    ⟨0, fun _ => 0, fun _ _ => 0⟩ 0 0 (fun _ => 0)
    ⟨0, fun _ => 0, fun _ _ => 0⟩ rfl).2.2

end Pauxy
